import Mathlib

set_option maxHeartbeats 1000000

/-!
Formal model of the layoutflash tool (`src/tools/layoutflash/src/main.rs`).

The tool has two stages.  `read_fixed_fdt` extracts `Area` records from a
flattened-device-tree event stream, and `layout_flash` resolves offsets,
checks for overlaps and writes a flat flash image.

The device-tree decoding collaborators (`FdtReader`, `FdtIterator`,
`FdtIterator::skip_node`, `infer_type`, `read_all`) live in the
`device_tree` crate, outside the sources under verification.  They are
modelled from the spec: the iterator is a list of items, each either a
decoded structural event or a structural-decode error, and property
events carry the scalar value already inferred for their raw bytes.
-/

/-- Modelled from the spec: the scalar type that the external `infer_type`
collaborator assigns to a raw property value (string, unsigned 32-bit
integer, or opaque/unknown).  A property event carries this inferred
value directly, standing for the composition of the external `read_all`
read primitive and `infer_type`. -/
inductive Ty
  | str (s : String)
  | u32 (x : Nat)
  | unknown
deriving DecidableEq

/-- One structural tree event, mirroring `device_tree::Entry`:
node entry with a name, node exit, or a named property. -/
inductive Entry
  | startNode (name : String)
  | endNode
  | property (name : String) (value : Ty)
deriving DecidableEq

/-- Modelled from the spec: one item produced by the external
`FdtIterator::next`, which returns `Result<Option<Entry>>` — either a
decoded event or a structural-decode error (the end of the stream is the
end of the list). -/
abbrev Item := Except String Entry

/-- The `Area` record of `main.rs`: description, compatible tag, optional
explicit offset, size, optional file path.  The Rust `u32` fields are
carried as `Nat`; every value the program itself parses is below
`2 ^ 32` and the one place where `u32` arithmetic can wrap is modelled
explicitly (`u32add`). -/
structure Area where
  description : String
  compatible : String
  offset : Option Nat
  size : Nat
  file : Option String
deriving DecidableEq

/-- `Area::default()`: empty strings, no offset, size 0, no file. -/
def defaultArea : Area := ⟨"", "", none, 0, none⟩

/-- Decides whether `pat` is an initial segment of `s`.  Models Rust
`str::starts_with` on the character level. -/
def listIsInit : List Char → List Char → Bool
  | [], _ => true
  | _ :: _, [] => false
  | p :: ps, c :: cs => p = c && listIsInit ps cs

/-- Decides whether `pat` is a final segment of `s`.  Models Rust
`str::ends_with` on the character level. -/
def listIsFinal (pat s : List Char) : Bool :=
  listIsInit pat.reverse s.reverse

/-- The `name.starts_with("area@")` test of `read_fixed_fdt`. -/
def nameIsArea (name : String) : Bool :=
  listIsInit "area@".toList name.toList

/-- The property-to-field assignment of `read_area_node`: the Rust
`match (name, infer_type(data))` with arms for `description`,
`compatible`, `offset`, `size` and `file`, and a catch-all arm that
leaves the area unchanged. -/
def assignProp (area : Area) (name : String) (v : Ty) : Area :=
  match v with
  | Ty.str x =>
    if name = "description" then { area with description := x }
    else if name = "compatible" then { area with compatible := x }
    else if name = "file" then { area with file := some x }
    else area
  | Ty.u32 x =>
    if name = "offset" then { area with offset := some x }
    else if name = "size" then { area with size := x }
    else area
  | Ty.unknown => area

/-- `read_area_node` of `main.rs`, with the external
`FdtIterator::skip_node` (modelled from the spec: consume events,
tracking nesting, until the subtree of the node just entered is closed)
inlined as the `depth` counter.  `depth = 0` is the body of
`read_area_node` itself: a nested `StartNode` enters skip mode
(`depth = 1`), `EndNode` finalizes the area, a property is assigned via
`assignProp`.  At `depth > 0` the walk is inside `skip_node`: nested
nodes adjust the depth and properties are ignored.  A decode error from
the iterator is propagated in either mode (`iter.next()?`), and an
exhausted iterator finalizes the area (the Rust `while let` falls
through to `Ok(area)`). -/
def read_area_node (l : List Item) (area : Area) (depth : Nat) :
    Except String (Area × List Item) :=
  match l with
  | [] => Except.ok (area, [])
  | Except.error e :: _ => Except.error e
  | Except.ok (Entry.startNode _) :: rest => read_area_node rest area (depth + 1)
  | Except.ok Entry.endNode :: rest =>
    if depth = 0 then Except.ok (area, rest) else read_area_node rest area (depth - 1)
  | Except.ok (Entry.property nm v) :: rest =>
    if depth = 0 then read_area_node rest (assignProp area nm v) depth
    else read_area_node rest area depth

theorem read_area_node_len :
    ∀ (l : List Item) (a : Area) (d : Nat) (a2 : Area) (l2 : List Item),
      read_area_node l a d = Except.ok (a2, l2) → l2.length ≤ l.length := by
  intro l
  induction l with
  | nil =>
    intro a d a2 l2 h
    simp only [read_area_node] at h
    cases h
    simp
  | cons it rest ih =>
    intro a d a2 l2 h
    match it with
    | Except.error e => simp [read_area_node] at h
    | Except.ok (Entry.startNode n) =>
      simp only [read_area_node] at h
      have := ih a (d + 1) a2 l2 h
      simp only [List.length_cons]
      omega
    | Except.ok Entry.endNode =>
      simp only [read_area_node] at h
      split at h
      · cases h
        simp
      · have := ih a (d - 1) a2 l2 h
        simp only [List.length_cons]
        omega
    | Except.ok (Entry.property nm v) =>
      simp only [read_area_node] at h
      split at h
      · have := ih (assignProp a nm v) d a2 l2 h
        simp only [List.length_cons]
        omega
      · have := ih a d a2 l2 h
        simp only [List.length_cons]
        omega

/-- The possible outcomes of `read_fixed_fdt`, which in Rust returns
`io::Result<Vec<Area>>` but also calls `.unwrap()` on the iterator
results: `ok` models `Ok(areas)`, `errResult` models returning `Err`
(done only for the input-open failure), and `crash` models a panic from
one of the `.unwrap()` calls. -/
inductive Outcome
  | ok (areas : List Area)
  | errResult (msg : String)
  | crash (msg : String)
deriving DecidableEq

/-- The top-level walk loop of `read_fixed_fdt`: a `StartNode` whose name
begins with `area@` is handed to `read_area_node` (its result pushed onto
`acc`), any other event just continues the loop, and an `Err` from the
iterator or from `read_area_node` is `.unwrap()`ed, i.e. the process
panics. -/
def fdtLoop (l : List Item) (acc : List Area) : Outcome :=
  match l with
  | [] => Outcome.ok acc.reverse
  | Except.error e :: _ => Outcome.crash e
  | Except.ok (Entry.startNode name) :: rest =>
    if nameIsArea name then
      match h : read_area_node rest defaultArea 0 with
      | Except.error e => Outcome.crash e
      | Except.ok (a, rest2) => fdtLoop rest2 (a :: acc)
    else fdtLoop rest acc
  | Except.ok Entry.endNode :: rest => fdtLoop rest acc
  | Except.ok (Entry.property _ _) :: rest => fdtLoop rest acc
termination_by l.length
decreasing_by
  · have := read_area_node_len rest defaultArea 0 a rest2 h
    simp only [List.length_cons]
    omega
  · simp only [List.length_cons]
    omega
  · simp only [List.length_cons]
    omega
  · simp only [List.length_cons]
    omega

theorem fdtLoop_nil (acc : List Area) : fdtLoop [] acc = Outcome.ok acc.reverse := by
  rw [fdtLoop]

theorem fdtLoop_err (e : String) (rest : List Item) (acc : List Area) :
    fdtLoop (Except.error e :: rest) acc = Outcome.crash e := by
  rw [fdtLoop]

theorem fdtLoop_end (rest : List Item) (acc : List Area) :
    fdtLoop (Except.ok Entry.endNode :: rest) acc = fdtLoop rest acc := by
  rw [fdtLoop]

theorem fdtLoop_prop (nm : String) (v : Ty) (rest : List Item) (acc : List Area) :
    fdtLoop (Except.ok (Entry.property nm v) :: rest) acc = fdtLoop rest acc := by
  rw [fdtLoop]

theorem fdtLoop_other (name : String) (rest : List Item) (acc : List Area)
    (h : nameIsArea name = false) :
    fdtLoop (Except.ok (Entry.startNode name) :: rest) acc = fdtLoop rest acc := by
  rw [fdtLoop, h]
  simp

theorem fdtLoop_area_ok (name : String) (rest : List Item) (acc : List Area)
    (a : Area) (rest2 : List Item) (h : nameIsArea name = true)
    (hr : read_area_node rest defaultArea 0 = Except.ok (a, rest2)) :
    fdtLoop (Except.ok (Entry.startNode name) :: rest) acc = fdtLoop rest2 (a :: acc) := by
  rw [fdtLoop, h]
  simp only [if_true]
  split <;> simp_all

theorem fdtLoop_area_err (name : String) (rest : List Item) (acc : List Area)
    (e : String) (h : nameIsArea name = true)
    (hr : read_area_node rest defaultArea 0 = Except.error e) :
    fdtLoop (Except.ok (Entry.startNode name) :: rest) acc = Outcome.crash e := by
  rw [fdtLoop, h]
  simp only [if_true]
  split <;> simp_all

/-- `read_fixed_fdt` of `main.rs`: `contents = none` models `fs::read`
failing (the function returns the descriptive input-open error),
otherwise the decoded event stream is walked by `fdtLoop`, starting with
an empty accumulator. -/
def read_fixed_fdt (path : String) (contents : Option (List Item)) : Outcome :=
  match contents with
  | none => Outcome.errResult ("Could not open: " ++ path)
  | some stream => fdtLoop stream []

example :
    read_fixed_fdt "x"
      (some [Except.ok (Entry.startNode "area@0"),
             Except.ok (Entry.property "size" (Ty.u32 7)),
             Except.ok Entry.endNode]) =
      Outcome.ok [⟨"", "", none, 7, none⟩] := by
  rw [read_fixed_fdt]
  rw [fdtLoop_area_ok "area@0"
      [Except.ok (Entry.property "size" (Ty.u32 7)), Except.ok Entry.endNode] []
      ⟨"", "", none, 7, none⟩ [] rfl rfl]
  rw [fdtLoop_nil]
  rfl

theorem listIsInit_length :
    ∀ (pat s : List Char), listIsInit pat s = true → pat.length ≤ s.length := by
  intro pat
  induction pat with
  | nil => intro s _; simp
  | cons p ps ih =>
    intro s h
    match s with
    | [] => simp [listIsInit] at h
    | c :: cs =>
      simp only [listIsInit, Bool.and_eq_true] at h
      have := ih cs h.2
      simp only [List.length_cons]
      omega

/-- One pass of Rust `str::replace(&path, &pat, &rep)`: replace each
non-overlapping occurrence of `pat` in `s`, scanning left to right.  (In
`layout_flash` the pattern is always `$(KEY)`, never empty; an empty
pattern is mapped to the identity here.) -/
def replaceAll (pat rep s : List Char) : List Char :=
  if h : pat ≠ [] ∧ listIsInit pat s = true then
    rep ++ replaceAll pat rep (s.drop pat.length)
  else
    match s with
    | [] => []
    | c :: cs => c :: replaceAll pat rep cs
termination_by s.length
decreasing_by
  · have h1 := listIsInit_length pat s h.2
    have h2 : 0 < pat.length := List.length_pos.mpr h.1
    simp only [List.length_drop]
    omega
  · simp only [List.length_cons]
    omega

/-- The environment-variable substitution loop of `layout_flash`:
`for (key, value) in env::vars() { path = str::replace(&path, &format!("$({})", key), &value); }`
with the process environment modelled as an association list. -/
def substEnv (env : List (String × String)) (p : String) : String :=
  env.foldl
    (fun acc kv =>
      String.mk (replaceAll ("$(" ++ kv.1 ++ ")").toList kv.2.toList acc.toList))
    p

/-- The skip test of `layout_flash`:
`path.starts_with("$(") && path.ends_with(')')`. -/
def isSkipPath (p : String) : Bool :=
  listIsInit "$(".toList p.toList && listIsFinal ")".toList p.toList

/-- The output image in construction: the file produced by
`File::create`, as its current length and its byte content (a fresh
file; unwritten positions read as the filesystem default 0). -/
structure OutFile where
  length : Nat
  data : Nat → Nat

/-- The file just after `File::create`: empty. -/
def emptyFile : OutFile := ⟨0, fun _ => 0⟩

/-- Seeking to `offset` and writing `n` fill bytes `0xff`
(`v.resize(a.size, 0xff); f.seek(offset); f.write_all(&v)`).  A write of
zero bytes does not extend the file. -/
def OutFile.fill (f : OutFile) (offset n : Nat) : OutFile :=
  { length := if n = 0 then f.length else max f.length (offset + n)
    data := fun i => if offset ≤ i ∧ i < offset + n then 255 else f.data i }

/-- Seeking to `offset` and writing the byte list `bytes`
(`f.seek(offset); f.write_all(&data)`). -/
def OutFile.writeData (f : OutFile) (offset : Nat) (bytes : List Nat) : OutFile :=
  { length := if bytes.length = 0 then f.length else max f.length (offset + bytes.length)
    data := fun i =>
      if offset ≤ i ∧ i < offset + bytes.length then bytes.getD (i - offset) 0
      else f.data i }

/-- The errors `layout_flash` can return, as structured values carrying
exactly the data its `format!` messages name: the overlap error carries
the previous running end, the offending area's description and its
resolved offset; the open error carries the resolved path; the too-big
error carries the path, the file length and the area size. -/
inductive LayoutErr
  | overlap (lastEnd : Nat) (description : String) (offset : Nat)
  | fileOpen (path : String)
  | fileTooBig (path : String) (fileLen : Nat) (areaSize : Nat)
deriving DecidableEq

/-- The `u32` addition `offset + a.size` of `layout_flash`: in a release
build Rust wraps modulo `2 ^ 32` (a debug build would trap; either way
the mathematical sum is not preserved once it reaches `2 ^ 32`). -/
def u32add (a b : Nat) : Nat := (a + b) % 4294967296

/-- The `Option<u32>` key order used by
`areas.sort_unstable_by_key(|a| a.offset)`: `None` is least, `Some`
values compare by value. -/
def keyLE : Option Nat → Option Nat → Bool
  | none, _ => true
  | some _, none => false
  | some x, some y => decide (x ≤ y)

/-- Comparison of two areas by their `offset` key. -/
def areaLE (a b : Area) : Prop := keyLE a.offset b.offset = true

instance : DecidableRel areaLE := fun a b => instDecidableEqBool _ _

instance : IsTotal Area areaLE := by
  constructor
  intro a b
  unfold areaLE
  cases a.offset <;> cases b.offset <;> simp [keyLE] <;> omega

instance : IsTrans Area areaLE := by
  constructor
  intro a b c
  unfold areaLE
  cases a.offset <;> cases b.offset <;> cases c.offset <;> simp [keyLE] <;> omega

/-- The `areas.sort_unstable_by_key(|a| a.offset)` step, modelled as an
insertion sort by the same key.  `sort_unstable_by_key` promises a
sorted permutation but leaves the relative order of equal keys
unspecified; this model realizes one conforming behavior (equal keys
keep their original relative order). -/
def sortAreas (l : List Area) : List Area := List.insertionSort areaLE l

/-- The `layout_flash` loop body for one area: resolve the offset
(explicit `offset`, else the running `last_area_end`), fail on overlap,
advance the running end with the wrapping `u32` addition, fill the area
with `0xff`, then handle the optional file: substitute environment
variables in the path, silently skip a path that still looks like
`$(...)`, otherwise read the file (`fsr` models `fs::read`, `none`
meaning unreadable), fail if it exceeds the area size, else write its
bytes at the area's offset. -/
def processArea (env : List (String × String)) (fsr : String → Option (List Nat))
    (f : OutFile) (lastEnd : Nat) (a : Area) : Except LayoutErr (OutFile × Nat) :=
  let offset := a.offset.getD lastEnd
  if offset < lastEnd then
    Except.error (LayoutErr.overlap lastEnd a.description offset)
  else
    let newEnd := u32add offset a.size
    let f1 := f.fill offset a.size
    match a.file with
    | none => Except.ok (f1, newEnd)
    | some p =>
      let p2 := substEnv env p
      if isSkipPath p2 then Except.ok (f1, newEnd)
      else
        match fsr p2 with
        | none => Except.error (LayoutErr.fileOpen p2)
        | some bytes =>
          if a.size < bytes.length then
            Except.error (LayoutErr.fileTooBig p2 bytes.length a.size)
          else Except.ok (f1.writeData offset bytes, newEnd)

/-- The `for a in areas` loop of `layout_flash`, threading the output
file and `last_area_end` and aborting on the first error. -/
def layoutLoop (env : List (String × String)) (fsr : String → Option (List Nat)) :
    List Area → OutFile → Nat → Except LayoutErr OutFile
  | [], f, _ => Except.ok f
  | a :: rest, f, lastEnd =>
    match processArea env fsr f lastEnd a with
    | Except.error e => Except.error e
    | Except.ok (f2, newEnd) => layoutLoop env fsr rest f2 newEnd

/-- `layout_flash` of `main.rs`: sort the areas by offset key, create the
output file, and run the loop from `last_area_end = 0`. -/
def layout_flash (env : List (String × String)) (fsr : String → Option (List Nat))
    (areas : List Area) : Except LayoutErr OutFile :=
  layoutLoop env fsr (sortAreas areas) emptyFile 0

/-- The offset-resolution trace of the `layout_flash` loop: for each area
of `l` (in processing order, starting from running end `lastEnd`), the
area itself, its resolved offset, and the running end just before it. -/
def resolveAreas : Nat → List Area → List (Area × Nat × Nat)
  | _, [] => []
  | lastEnd, a :: rest =>
    (a, a.offset.getD lastEnd, lastEnd) ::
      resolveAreas (u32add (a.offset.getD lastEnd) a.size) rest

/-- The end offset of the highest-offset area: the maximum of
`offset + size` over the areas (0 for an empty list), offsets read with
default 0. -/
def maxEnd (areas : List Area) : Nat :=
  areas.foldr (fun a m => max (a.offset.getD 0 + a.size) m) 0

/-- Discriminator: did `layout_flash` fail with an overlap error? -/
def isOverlapRes : Except LayoutErr OutFile → Bool
  | Except.error (LayoutErr.overlap _ _ _) => true
  | _ => false

/-- Discriminator: the error of a `layout_flash` result, if any. -/
def errOf : Except LayoutErr OutFile → Option LayoutErr
  | Except.error e => some e
  | Except.ok _ => none

/-- Discriminator: did `layout_flash` succeed? -/
def isOkRes : Except LayoutErr OutFile → Bool
  | Except.ok _ => true
  | Except.error _ => false

/-- Discriminator: the length of the produced image, if any. -/
def resultLength : Except LayoutErr OutFile → Option Nat
  | Except.ok f => some f.length
  | Except.error _ => none

/-- Discriminator: the byte at index `i` of the produced image, if any. -/
def byteAt : Except LayoutErr OutFile → Nat → Option Nat
  | Except.ok f, i => some (f.data i)
  | Except.error _, _ => none

/-- Discriminator: is the extractor outcome the error-result form? -/
def isErrResult : Outcome → Bool
  | Outcome.errResult _ => true
  | _ => false

/-- The recognized (name, inferred type) combinations of
`read_area_node`'s property match, as a Boolean test. -/
def recognizedProp (name : String) (v : Ty) : Bool :=
  match v with
  | Ty.str _ => name = "description" || name = "compatible" || name = "file"
  | Ty.u32 _ => name = "offset" || name = "size"
  | Ty.unknown => false

example : substEnv [] "$(UNSET)" = "$(UNSET)" := rfl

example : isSkipPath "$(UNSET)" = true := by decide

example : isSkipPath "missing" = false := by decide

example :
    isOkRes (layout_flash [] (fun _ => none)
      [⟨"x", "", some 0, 16, none⟩, ⟨"y", "", some 16, 16, none⟩]) = true := by decide

example :
    resultLength (layout_flash [] (fun _ => none)
      [⟨"x", "", some 0, 16, none⟩, ⟨"y", "", some 16, 16, none⟩]) = some 32 := by decide

example :
    errOf (layout_flash [] (fun _ => none)
      [⟨"x", "", some 0, 16, none⟩, ⟨"y", "", some 8, 16, none⟩]) =
      some (LayoutErr.overlap 16 "y" 8) := by decide

theorem processArea_none (env : List (String × String)) (fsr : String → Option (List Nat))
    (f : OutFile) (le : Nat) (a : Area) (hnf : a.file = none) :
    processArea env fsr f le a =
      if a.offset.getD le < le then
        Except.error (LayoutErr.overlap le a.description (a.offset.getD le))
      else Except.ok (f.fill (a.offset.getD le) a.size, u32add (a.offset.getD le) a.size) := by
  simp only [processArea, hnf]

theorem processArea_ok_le (env : List (String × String)) (fsr : String → Option (List Nat))
    (f : OutFile) (le : Nat) (a : Area) (f1 : OutFile) (ne : Nat)
    (h : processArea env fsr f le a = Except.ok (f1, ne)) :
    le ≤ a.offset.getD le ∧ ne = u32add (a.offset.getD le) a.size := by
  simp only [processArea] at h
  split at h
  · cases h
  · constructor
    · omega
    · match hf : a.file with
      | none => simp only [hf] at h; cases h; rfl
      | some p =>
        simp only [hf] at h
        split at h
        · cases h; rfl
        · split at h
          · cases h
          · split at h
            · cases h
            · cases h; rfl

theorem processArea_ok_data (env : List (String × String)) (fsr : String → Option (List Nat))
    (f : OutFile) (le : Nat) (a : Area) (f1 : OutFile) (ne : Nat)
    (h : processArea env fsr f le a = Except.ok (f1, ne)) :
    ∀ i, i < a.offset.getD le ∨ a.offset.getD le + a.size ≤ i → f1.data i = f.data i := by
  intro i hi
  simp only [processArea] at h
  split at h
  · cases h
  · match hf : a.file with
    | none =>
      simp only [hf] at h
      cases h
      simp only [OutFile.fill]
      rw [if_neg]
      omega
    | some p =>
      simp only [hf] at h
      split at h
      · cases h
        simp only [OutFile.fill]
        rw [if_neg]
        omega
      · split at h
        · cases h
        · split at h
          · cases h
          · rename_i bytes hbytes hlen
            cases h
            simp only [OutFile.writeData, OutFile.fill]
            rw [if_neg, if_neg]
            · omega
            · omega

theorem processArea_file_ok (env : List (String × String)) (fsr : String → Option (List Nat))
    (f : OutFile) (le : Nat) (a : Area) (f1 : OutFile) (ne : Nat) (p : String)
    (bytes : List Nat)
    (hfile : a.file = some p)
    (hskip : isSkipPath (substEnv env p) = false)
    (hread : fsr (substEnv env p) = some bytes)
    (h : processArea env fsr f le a = Except.ok (f1, ne)) :
    bytes.length ≤ a.size ∧
      f1 = (f.fill (a.offset.getD le) a.size).writeData (a.offset.getD le) bytes := by
  simp only [processArea, hfile, hskip, hread] at h
  split at h
  · cases h
  · simp only [Bool.false_eq_true, if_false] at h
    split at h
    · cases h
    · cases h
      constructor
      · omega
      · rfl

theorem layoutLoop_checks (env : List (String × String)) (fsr : String → Option (List Nat)) :
    ∀ (l : List Area) (f : OutFile) (le : Nat) (f2 : OutFile),
      layoutLoop env fsr l f le = Except.ok f2 →
      ∀ x ∈ resolveAreas le l, x.2.2 ≤ x.2.1 := by
  intro l
  induction l with
  | nil => intro f le f2 _ x hx; simp [resolveAreas] at hx
  | cons a rest ih =>
    intro f le f2 h x hx
    simp only [layoutLoop] at h
    split at h
    · cases h
    · rename_i f1 ne hpa
      simp only [resolveAreas, List.mem_cons] at hx
      rcases hx with hx | hx
      · subst hx
        exact (processArea_ok_le env fsr f le a f1 ne hpa).1
      · have hne := (processArea_ok_le env fsr f le a f1 ne hpa).2
        subst hne
        exact ih f1 (u32add (a.offset.getD le) a.size) f2 h x hx

theorem layoutLoop_untouched (env : List (String × String)) (fsr : String → Option (List Nat)) :
    ∀ (l : List Area) (f : OutFile) (le : Nat) (f2 : OutFile),
      layoutLoop env fsr l f le = Except.ok f2 →
      (∀ x ∈ resolveAreas le l, x.2.1 + x.1.size < 4294967296) →
      ∀ i, i < le → f2.data i = f.data i := by
  intro l
  induction l with
  | nil =>
    intro f le f2 h _ i _
    simp only [layoutLoop] at h
    cases h
    rfl
  | cons a rest ih =>
    intro f le f2 h hnw i hi
    simp only [layoutLoop] at h
    split at h
    · cases h
    · rename_i f1 ne hpa
      obtain ⟨hle, hne⟩ := processArea_ok_le env fsr f le a f1 ne hpa
      have hhd : (a, a.offset.getD le, le) ∈ resolveAreas le (a :: rest) := by
        simp [resolveAreas]
      have hw := hnw _ hhd
      simp only at hw
      have hne2 : ne = a.offset.getD le + a.size := by
        rw [hne, u32add, Nat.mod_eq_of_lt hw]
      have htail : ∀ x ∈ resolveAreas ne rest, x.2.1 + x.1.size < 4294967296 := by
        intro x hx
        apply hnw
        simp only [resolveAreas, List.mem_cons]
        right
        rw [← hne]
        exact hx
      have h1 := ih f1 ne f2 h htail i (by omega)
      rw [h1]
      exact processArea_ok_data env fsr f le a f1 ne hpa i (by omega)

theorem layoutLoop_nofile_char (env : List (String × String))
    (fsr : String → Option (List Nat)) :
    ∀ (l : List Area) (f : OutFile) (le : Nat), (∀ a ∈ l, a.file = none) →
      (∃ x, (resolveAreas le l).find? (fun y => decide (y.2.1 < y.2.2)) = some x ∧
          layoutLoop env fsr l f le =
            Except.error (LayoutErr.overlap x.2.2 x.1.description x.2.1)) ∨
        ((resolveAreas le l).find? (fun y => decide (y.2.1 < y.2.2)) = none ∧
          ∃ f2, layoutLoop env fsr l f le = Except.ok f2) := by
  intro l
  induction l with
  | nil =>
    intro f le _
    right
    exact ⟨rfl, f, rfl⟩
  | cons a rest ih =>
    intro f le hnf
    have hpa := processArea_none env fsr f le a (hnf a (by simp))
    by_cases hlt : a.offset.getD le < le
    · left
      refine ⟨(a, a.offset.getD le, le), ?_, ?_⟩
      · simp only [resolveAreas]
        apply List.find?_cons_of_pos
        simpa using hlt
      · simp only [layoutLoop, hpa, if_pos hlt]
    · have hrec := ih (f.fill (a.offset.getD le) a.size)
        (u32add (a.offset.getD le) a.size) (fun b hb => hnf b (by simp [hb]))
      have hstep : layoutLoop env fsr (a :: rest) f le =
          layoutLoop env fsr rest (f.fill (a.offset.getD le) a.size)
            (u32add (a.offset.getD le) a.size) := by
        simp only [layoutLoop, hpa, if_neg hlt]
      have hfind : (resolveAreas le (a :: rest)).find? (fun y => decide (y.2.1 < y.2.2)) =
          (resolveAreas (u32add (a.offset.getD le) a.size) rest).find?
            (fun y => decide (y.2.1 < y.2.2)) := by
        simp only [resolveAreas]
        apply List.find?_cons_of_neg
        simpa using hlt
      rw [hstep, hfind]
      exact hrec

theorem foldr_max_pull (g : Area → Nat) :
    ∀ (l : List Area) (i e : Nat),
      l.foldr (fun a m => max (g a) m) (max i e) =
        max e (l.foldr (fun a m => max (g a) m) i) := by
  intro l
  induction l with
  | nil => intro i e; simp [Nat.max_comm]
  | cons a rest ih =>
    intro i e
    simp only [List.foldr_cons, ih]
    omega

theorem layoutLoop_ok_len (env : List (String × String))
    (fsr : String → Option (List Nat)) :
    ∀ (l : List Area) (f : OutFile) (le : Nat),
      (∀ a ∈ l, a.file = none) →
      (∀ a ∈ l, 0 < a.size) →
      (∀ a ∈ l, ∃ x, a.offset = some x) →
      (∀ a ∈ l, a.offset.getD 0 + a.size < 4294967296) →
      (∀ a ∈ l, le ≤ a.offset.getD 0) →
      List.Pairwise (fun x y => x.offset.getD 0 + x.size ≤ y.offset.getD 0) l →
      ∃ f2, layoutLoop env fsr l f le = Except.ok f2 ∧
        f2.length = l.foldr (fun a m => max (a.offset.getD 0 + a.size) m) f.length := by
  intro l
  induction l with
  | nil =>
    intro f le _ _ _ _ _ _
    exact ⟨f, rfl, rfl⟩
  | cons a rest ih =>
    intro f le h1 h2 h3 h4 h5 h6
    obtain ⟨ox, hox⟩ := h3 a (by simp)
    have hoff : a.offset.getD le = a.offset.getD 0 := by rw [hox]; rfl
    have hlt : ¬ a.offset.getD le < le := by
      rw [hoff]
      have := h5 a (by simp)
      omega
    have hpa := processArea_none env fsr f le a (h1 a (by simp))
    have hwrap : u32add (a.offset.getD le) a.size = a.offset.getD 0 + a.size := by
      rw [hoff, u32add, Nat.mod_eq_of_lt (h4 a (by simp))]
    have hstep : layoutLoop env fsr (a :: rest) f le =
        layoutLoop env fsr rest (f.fill (a.offset.getD le) a.size)
          (a.offset.getD 0 + a.size) := by
      rw [layoutLoop, hpa, if_neg hlt, hwrap]
    obtain ⟨f2, hf2, hlen⟩ := ih (f.fill (a.offset.getD le) a.size)
      (a.offset.getD 0 + a.size)
      (fun b hb => h1 b (by simp [hb]))
      (fun b hb => h2 b (by simp [hb]))
      (fun b hb => h3 b (by simp [hb]))
      (fun b hb => h4 b (by simp [hb]))
      (fun b hb => List.rel_of_pairwise_cons h6 hb)
      (List.Pairwise.of_cons h6)
    refine ⟨f2, by rw [hstep]; exact hf2, ?_⟩
    rw [hlen]
    have hsz : a.size ≠ 0 := by
      have := h2 a (by simp)
      omega
    have hfl : (f.fill (a.offset.getD le) a.size).length =
        max f.length (a.offset.getD 0 + a.size) := by
      simp only [OutFile.fill, if_neg hsz, hoff]
    rw [hfl, List.foldr_cons, foldr_max_pull]

theorem resolveAreas_le_mono :
    ∀ (l : List Area) (le : Nat),
      (∀ x ∈ resolveAreas le l, x.2.2 ≤ x.2.1) →
      (∀ x ∈ resolveAreas le l, x.2.1 + x.1.size < 4294967296) →
      ∀ x ∈ resolveAreas le l, le ≤ x.2.2 := by
  intro l
  induction l with
  | nil => intro le _ _ x hx; simp [resolveAreas] at hx
  | cons a rest ih =>
    intro le hchk hnw x hx
    have hhd : (a, a.offset.getD le, le) ∈ resolveAreas le (a :: rest) := by
      simp [resolveAreas]
    have hle := hchk _ hhd
    have hw := hnw _ hhd
    simp only at hle hw
    simp only [resolveAreas, List.mem_cons] at hx
    rcases hx with hx | hx
    · subst hx; rfl
    · have hne2 : u32add (a.offset.getD le) a.size = a.offset.getD le + a.size := by
        rw [u32add, Nat.mod_eq_of_lt hw]
      have htl : ∀ P : Area × Nat × Nat → Prop,
          (∀ y ∈ resolveAreas le (a :: rest), P y) →
          ∀ y ∈ resolveAreas (u32add (a.offset.getD le) a.size) rest, P y := by
        intro P hP y hy
        apply hP
        simp only [resolveAreas, List.mem_cons]
        exact Or.inr hy
      have := ih (u32add (a.offset.getD le) a.size)
        (htl _ hchk) (htl _ hnw) x hx
      omega

theorem layoutLoop_pairwise (env : List (String × String))
    (fsr : String → Option (List Nat)) :
    ∀ (l : List Area) (f : OutFile) (le : Nat) (f2 : OutFile),
      layoutLoop env fsr l f le = Except.ok f2 →
      (∀ x ∈ resolveAreas le l, x.2.1 + x.1.size < 4294967296) →
      List.Pairwise (fun x y => x.2.1 + x.1.size ≤ y.2.1 ∨ y.2.1 + y.1.size ≤ x.2.1)
        (resolveAreas le l) := by
  intro l
  induction l with
  | nil => intro f le f2 _ _; simp [resolveAreas]
  | cons a rest ih =>
    intro f le f2 h hnw
    simp only [layoutLoop] at h
    split at h
    · cases h
    · rename_i f1 ne hpa
      obtain ⟨hle, hne⟩ := processArea_ok_le env fsr f le a f1 ne hpa
      have hw := hnw (a, a.offset.getD le, le) (by simp [resolveAreas])
      simp only at hw
      have hne2 : ne = a.offset.getD le + a.size := by
        rw [hne, u32add, Nat.mod_eq_of_lt hw]
      have htail : ∀ x ∈ resolveAreas ne rest, x.2.1 + x.1.size < 4294967296 := by
        intro x hx
        apply hnw
        simp only [resolveAreas, List.mem_cons]
        right
        rw [← hne]
        exact hx
      have hptail := ih f1 ne f2 h htail
      have hchk := layoutLoop_checks env fsr rest f1 ne f2 h
      have hmono := resolveAreas_le_mono rest ne hchk htail
      simp only [resolveAreas, ← hne]
      constructor
      · intro y hy
        left
        have hy2 := hchk y hy
        have hy3 := hmono y hy
        show a.offset.getD le + a.size ≤ y.2.1
        omega
      · exact hptail

theorem layoutLoop_files (env : List (String × String))
    (fsr : String → Option (List Nat)) :
    ∀ (l : List Area) (f : OutFile) (le : Nat) (f2 : OutFile),
      layoutLoop env fsr l f le = Except.ok f2 →
      (∀ x ∈ resolveAreas le l, x.2.1 + x.1.size < 4294967296) →
      ∀ x ∈ resolveAreas le l, ∀ (p : String) (bytes : List Nat),
        x.1.file = some p →
        isSkipPath (substEnv env p) = false →
        fsr (substEnv env p) = some bytes →
        bytes.length ≤ x.1.size ∧
          (∀ k, k < bytes.length → f2.data (x.2.1 + k) = bytes.getD k 0) ∧
          (∀ k, bytes.length ≤ k → k < x.1.size → f2.data (x.2.1 + k) = 255) := by
  intro l
  induction l with
  | nil => intro f le f2 _ _ x hx; simp [resolveAreas] at hx
  | cons a rest ih =>
    intro f le f2 h hnw x hx p bytes hfile hskip hread
    simp only [layoutLoop] at h
    split at h
    · cases h
    · rename_i f1 ne hpa
      obtain ⟨hle, hne⟩ := processArea_ok_le env fsr f le a f1 ne hpa
      have hw := hnw (a, a.offset.getD le, le) (by simp [resolveAreas])
      simp only at hw
      have hne2 : ne = a.offset.getD le + a.size := by
        rw [hne, u32add, Nat.mod_eq_of_lt hw]
      have htail : ∀ z ∈ resolveAreas ne rest, z.2.1 + z.1.size < 4294967296 := by
        intro z hz
        apply hnw
        simp only [resolveAreas, List.mem_cons]
        right
        rw [← hne]
        exact hz
      simp only [resolveAreas, List.mem_cons] at hx
      rcases hx with hx | hx
      · subst hx
        simp only at hfile hskip hread ⊢
        obtain ⟨hfit, hf1⟩ :=
          processArea_file_ok env fsr f le a f1 ne p bytes hfile hskip hread hpa
        have huntouched := layoutLoop_untouched env fsr rest f1 ne f2 h htail
        refine ⟨hfit, ?_, ?_⟩
        · intro k hk
          rw [huntouched (a.offset.getD le + k) (by omega), hf1]
          simp only [OutFile.writeData]
          rw [if_pos (by omega)]
          congr 1
          omega
        · intro k hk1 hk2
          rw [huntouched (a.offset.getD le + k) (by omega), hf1]
          simp only [OutFile.writeData]
          rw [if_neg (by omega)]
          simp only [OutFile.fill]
          rw [if_pos (by omega)]
      · rw [← hne] at hx
        exact ih f1 ne f2 h htail x hx p bytes hfile hskip hread

theorem resolveAreas_head :
    ∀ (l : List Area) (le : Nat) (x : Area × Nat × Nat) (rest : List (Area × Nat × Nat)),
      resolveAreas le l = x :: rest → x.2.1 = x.1.offset.getD le ∧ x.2.2 = le := by
  intro l le x rest h
  match l with
  | [] => simp [resolveAreas] at h
  | a :: l2 =>
    simp only [resolveAreas, List.cons.injEq] at h
    obtain ⟨h1, _⟩ := h
    rw [← h1]
    exact ⟨rfl, rfl⟩

theorem resolveAreas_consec :
    ∀ (l : List Area) (le : Nat) (l1 : List (Area × Nat × Nat)) (x y : Area × Nat × Nat)
      (l2 : List (Area × Nat × Nat)),
      resolveAreas le l = l1 ++ x :: y :: l2 →
      y.2.1 = y.1.offset.getD (u32add x.2.1 x.1.size) ∧ y.2.2 = u32add x.2.1 x.1.size := by
  intro l
  induction l with
  | nil =>
    intro le l1 x y l2 h
    simp only [resolveAreas] at h
    exact absurd h (by simp)
  | cons a rest ih =>
    intro le l1 x y l2 h
    match l1 with
    | [] =>
      simp only [resolveAreas, List.nil_append, List.cons.injEq] at h
      obtain ⟨h1, h2⟩ := h
      have hh := resolveAreas_head rest (u32add (a.offset.getD le) a.size) y l2 h2
      rw [← h1]
      exact hh
    | z :: l1b =>
      simp only [resolveAreas, List.cons_append, List.cons.injEq] at h
      exact ih (u32add (a.offset.getD le) a.size) l1b x y l2 h.2

theorem maxEnd_perm : ∀ {l l2 : List Area}, l.Perm l2 → maxEnd l = maxEnd l2 := by
  intro l l2 h
  induction h with
  | nil => rfl
  | cons a _ ih => simp only [maxEnd, List.foldr_cons] at ih ⊢; rw [ih]
  | swap a b l =>
    simp only [maxEnd, List.foldr_cons]
    omega
  | trans _ _ ih1 ih2 => exact ih1.trans ih2

theorem sortAreas_perm (l : List Area) : (sortAreas l).Perm l :=
  List.perm_insertionSort areaLE l

theorem sortAreas_sorted (l : List Area) : List.Sorted areaLE (sortAreas l) :=
  List.sorted_insertionSort areaLE l

/-- Example list for claim C1: the first area's file is unreadable, so
the loop aborts before reaching the overlapping second area. -/
def c1bad : List Area := [⟨"p", "", some 0, 4, some "missing"⟩, ⟨"q", "", some 2, 4, none⟩]

/-- Example list for claim C3: a zero-size area at offset 100 succeeds
but extends the output to nothing. -/
def c3zero : List Area := [⟨"z", "", some 100, 0, none⟩]

/-- Example list for claim C4: the first area's `u32` end wraps to 4, so
the second area is accepted inside the first one's range and overwrites
its file content. -/
def c4wrap : List Area :=
  [⟨"big", "", some 5, 4294967295, some "f"⟩, ⟨"b", "", some 6, 1, none⟩]

/-- Filesystem for claim C4's counterexample: only the file `f`, holding
three bytes. -/
def c4fs : String → Option (List Nat) := fun q => if q = "f" then some [10, 20, 30] else none

/-- Example list for claim C4's witness: one area with a two-byte file. -/
def c4good : List Area := [⟨"w", "", some 2, 4, some "g"⟩]

/-- Filesystem for claim C4's witness: only the file `g`, holding two
bytes. -/
def c4gfs : String → Option (List Nat) := fun q => if q = "g" then some [9, 8] else none

/-- Example list for claim C10: the first area's `u32` end wraps
(5 + 4294967295 ≡ 4), so the second area passes the overlap check while
its range sits inside the first area's mathematical range. -/
def c10areas : List Area := [⟨"a", "", some 5, 4294967295, none⟩, ⟨"b", "", some 6, 1, none⟩]

/-- Example stream for claim C5: an `area@` node nested inside an
unrelated node `other`. -/
def c5stream : List Item :=
  [Except.ok (Entry.startNode "other"),
   Except.ok (Entry.startNode "area@nested"),
   Except.ok (Entry.property "size" (Ty.u32 5)),
   Except.ok Entry.endNode,
   Except.ok Entry.endNode]

/-- Example area for claim C6: explicit offset 0, size 4, and a file path
naming an unset environment variable. -/
def c6area : Area := ⟨"", "", some 0, 4, some "$(UNSET)"⟩

/-- Claim C2: an area whose `offset` field is absent resolves to the
running end of the area processed immediately before it (the `u32`
running end `last_area_end`, i.e. the predecessor's resolved offset plus
its size), and to 0 when no area precedes it in processing order
(`last_area_end` starts at 0).  Stated over the offset-resolution trace
of the processing (offset-sorted) list. -/
theorem c2_implicit_offset_resolution :
    (∀ (areas : List Area) (x : Area × Nat × Nat) (rest : List (Area × Nat × Nat)),
        resolveAreas 0 (sortAreas areas) = x :: rest → x.1.offset = none → x.2.1 = 0) ∧
      (∀ (areas : List Area) (l1 : List (Area × Nat × Nat)) (x y : Area × Nat × Nat)
          (l2 : List (Area × Nat × Nat)),
        resolveAreas 0 (sortAreas areas) = l1 ++ x :: y :: l2 → y.1.offset = none →
          y.2.1 = u32add x.2.1 x.1.size) := by
  constructor
  · intro areas x rest h hnone
    have hx := (resolveAreas_head _ 0 x rest h).1
    rw [hx, hnone]
    rfl
  · intro areas l1 x y l2 h hnone
    have hy := (resolveAreas_consec _ 0 l1 x y l2 h).1
    rw [hy, hnone]
    rfl

/-- Witness for C2: two areas with no explicit offsets and sizes 4 and 2;
the first resolves to offset 0, the second to the first's end 4. -/
theorem c2_witness :
    resolveAreas 0 (sortAreas [⟨"a", "", none, 4, none⟩, ⟨"b", "", none, 2, none⟩]) =
        [(⟨"a", "", none, 4, none⟩, 0, 0), (⟨"b", "", none, 2, none⟩, 4, 4)] ∧
      (0 : Nat) = 0 ∧ (4 : Nat) = u32add 0 4 := by
  refine ⟨by decide, ?_, ?_⟩
  · exact c2_implicit_offset_resolution.1
      [⟨"a", "", none, 4, none⟩, ⟨"b", "", none, 2, none⟩]
      (⟨"a", "", none, 4, none⟩, 0, 0) [(⟨"b", "", none, 2, none⟩, 4, 4)]
      (by decide) rfl
  · exact c2_implicit_offset_resolution.2
      [⟨"a", "", none, 4, none⟩, ⟨"b", "", none, 2, none⟩] []
      (⟨"a", "", none, 4, none⟩, 0, 0) (⟨"b", "", none, 2, none⟩, 4, 4) []
      (by decide) rfl

/-- Counterexample for claim C5: the top-level walk does not skip the
subtree of the non-`area@` node `other`; the nested node `area@nested`
is extracted as an area (size 5), whereas the claim demands that nodes
inside unrelated subtrees are never interpreted as areas (which would
give an empty area list here). -/
theorem c5_counterexample :
    read_fixed_fdt "in" (some c5stream) = Outcome.ok [⟨"", "", none, 5, none⟩] ∧
      read_fixed_fdt "in" (some c5stream) ≠ Outcome.ok [] := by
  have h1 : read_fixed_fdt "in" (some c5stream) = Outcome.ok [⟨"", "", none, 5, none⟩] := by
    rw [read_fixed_fdt]
    show fdtLoop c5stream [] = _
    rw [c5stream]
    rw [fdtLoop_other "other" _ [] (by decide)]
    rw [fdtLoop_area_ok "area@nested"
        [Except.ok (Entry.property "size" (Ty.u32 5)), Except.ok Entry.endNode,
         Except.ok Entry.endNode] []
        ⟨"", "", none, 5, none⟩ [Except.ok Entry.endNode] (by decide) rfl]
    rw [fdtLoop_end, fdtLoop_nil]
    rfl
  exact ⟨h1, by rw [h1]; decide⟩

/-- Claim C5 (amended): an enter-node event whose name does not begin
with `area@` is consumed as a single event and the walk continues with
the following events — i.e. it descends into that node's subtree
instead of skipping it, so `area@`-named nodes nested in unrelated
subtrees are extracted as areas. -/
theorem c5_no_subtree_skip (name : String) (rest : List Item) (acc : List Area)
    (h : nameIsArea name = false) :
    fdtLoop (Except.ok (Entry.startNode name) :: rest) acc = fdtLoop rest acc :=
  fdtLoop_other name rest acc h

/-- Witness for C5 (amended): the walk steps over the non-area node
`other` and continues with the very next event. -/
theorem c5_witness :
    fdtLoop [Except.ok (Entry.startNode "other"), Except.ok Entry.endNode] [] =
      fdtLoop [Except.ok Entry.endNode] [] :=
  c5_no_subtree_skip "other" [Except.ok Entry.endNode] [] (by decide)

/-- Claim C6: if an area's `file` path, after environment substitution,
is still of the exact form `$(...)`, the file step is silently skipped:
processing the area succeeds, only the `0xff` fill is written (every
byte of `[offset, offset + size)` is 255), and no file content is
written — regardless of what the filesystem would return for that
path. -/
theorem c6_unresolved_var_skip (env : List (String × String))
    (fsr : String → Option (List Nat)) (f : OutFile) (le : Nat) (a : Area)
    (p : String) (s : List Char)
    (hfile : a.file = some p)
    (hsub : (substEnv env p).toList = '$' :: '(' :: (s ++ [')']))
    (hno : ¬ a.offset.getD le < le) :
    processArea env fsr f le a =
        Except.ok (f.fill (a.offset.getD le) a.size, u32add (a.offset.getD le) a.size) ∧
      ∀ i, a.offset.getD le ≤ i → i < a.offset.getD le + a.size →
        (f.fill (a.offset.getD le) a.size).data i = 255 := by
  have h1 : listIsInit "$(".toList (substEnv env p).toList = true := by
    rw [hsub]
    rfl
  have h2 : listIsFinal ")".toList (substEnv env p).toList = true := by
    rw [listIsFinal, hsub]
    simp [List.reverse_cons, List.reverse_append, listIsInit]
  have hskip : isSkipPath (substEnv env p) = true := by
    rw [isSkipPath, h1, h2]
    rfl
  constructor
  · simp only [processArea, hfile, hskip, if_neg hno, if_true]
  · intro i hi1 hi2
    simp only [OutFile.fill]
    rw [if_pos ⟨hi1, hi2⟩]

/-- Witness for C6: an area whose file path is `$(UNSET)` under an empty
environment is processed successfully, fills `[0, 4)` with `0xff` (byte
2 shown), and writes no file content. -/
theorem c6_witness :
    processArea [] (fun _ => none) emptyFile 0 c6area =
        Except.ok (emptyFile.fill 0 4, u32add 0 4) ∧
      (emptyFile.fill 0 4).data 2 = 255 := by
  have h := c6_unresolved_var_skip [] (fun _ => none) emptyFile 0 c6area
    "$(UNSET)" "UNSET".toList rfl (by decide) (by decide)
  exact ⟨h.1, h.2 2 (by decide) (by decide)⟩

/-- Claim C7: a property whose name is not one of the five recognized
names, or whose inferred scalar type does not match the type expected
for its name, changes no field of the area under construction, and the
extraction step does not fail — the walk just continues with the
property consumed. -/
theorem c7_unrecognized_prop_ignored (area : Area) (name : String) (v : Ty)
    (rest : List Item) (h : recognizedProp name v = false) :
    assignProp area name v = area ∧
      read_area_node (Except.ok (Entry.property name v) :: rest) area 0 =
        read_area_node rest area 0 := by
  have ha : assignProp area name v = area := by
    cases v with
    | str s =>
      simp only [recognizedProp, Bool.or_eq_false_iff, decide_eq_false_iff_not] at h
      obtain ⟨⟨hd, hc⟩, hf⟩ := h
      simp [assignProp, hd, hc, hf]
    | u32 x =>
      simp only [recognizedProp, Bool.or_eq_false_iff, decide_eq_false_iff_not] at h
      obtain ⟨ho, hs⟩ := h
      simp [assignProp, ho, hs]
    | unknown => rfl
  refine ⟨ha, ?_⟩
  simp only [read_area_node, if_pos rfl, ha, if_true]

/-- Witness for C7: the unrecognized property `checksum` (a `u32`) leaves
a fully populated area unchanged and the walk continues. -/
theorem c7_witness :
    recognizedProp "checksum" (Ty.u32 9) = false ∧
      assignProp ⟨"d", "c", some 1, 2, some "f"⟩ "checksum" (Ty.u32 9) =
        ⟨"d", "c", some 1, 2, some "f"⟩ ∧
      read_area_node [Except.ok (Entry.property "checksum" (Ty.u32 9))]
          ⟨"d", "c", some 1, 2, some "f"⟩ 0 =
        read_area_node [] ⟨"d", "c", some 1, 2, some "f"⟩ 0 := by
  have h := c7_unrecognized_prop_ignored ⟨"d", "c", some 1, 2, some "f"⟩
    "checksum" (Ty.u32 9) [] (by decide)
  exact ⟨by decide, h.1, h.2⟩

/-- Counterexample for claim C9: on a stream whose first item is a
structural-decode error, `read_fixed_fdt` panics (the `.unwrap()` on
`iter.next()`), and does not surface the error as its error result (the
`io::Result::Err` return that the claim describes is produced only for
the input-open failure). -/
theorem c9_counterexample :
    read_fixed_fdt "in" (some [Except.error "bad"]) = Outcome.crash "bad" ∧
      isErrResult (read_fixed_fdt "in" (some [Except.error "bad"])) = false := by
  have h1 : read_fixed_fdt "in" (some [Except.error "bad"]) = Outcome.crash "bad" := by
    rw [read_fixed_fdt]
    exact fdtLoop_err "bad" [] []
  exact ⟨h1, by rw [h1]; rfl⟩

/-- Claim C9 (amended): a structural-decode error is propagated by
`read_area_node` to its caller as an error result, and `read_fixed_fdt`
aborts the whole walk on it — but by panicking (`.unwrap()`), not by
returning it as its own error result; no area list is produced either
way. -/
theorem c9_parse_error_panic :
    (∀ (e : String) (rest : List Item) (acc : List Area),
        fdtLoop (Except.error e :: rest) acc = Outcome.crash e) ∧
      (∀ (e : String) (rest : List Item) (a : Area),
        read_area_node (Except.error e :: rest) a 0 = Except.error e) ∧
      (∀ (e name : String) (rest : List Item) (acc : List Area),
        nameIsArea name = true → read_area_node rest defaultArea 0 = Except.error e →
          fdtLoop (Except.ok (Entry.startNode name) :: rest) acc = Outcome.crash e) := by
  refine ⟨fdtLoop_err, ?_, ?_⟩
  · intro e rest a
    simp [read_area_node]
  · intro e name rest acc h hr
    exact fdtLoop_area_err name rest acc e h hr

/-- Witness for C9 (amended): an `area@` node whose body hits a decode
error makes the whole walk panic with that error. -/
theorem c9_witness :
    fdtLoop [Except.ok (Entry.startNode "area@0"), Except.error "bad"] [] =
      Outcome.crash "bad" :=
  c9_parse_error_panic.2.2 "bad" "area@0" [Except.error "bad"] [] (by decide)
    (by simp [read_area_node])

/-- Counterexample for claim C1: on `c1bad` the overlap condition holds
(the second area's resolved offset 2 is below the first area's end 4),
yet the compiler fails with a file-open error for the first area's
unreadable file, not with an overlap error — so "fails with an overlap
error exactly when the offsets overlap" is false for arbitrary area
lists. -/
theorem c1_counterexample :
    errOf (layout_flash [] (fun _ => none) c1bad) = some (LayoutErr.fileOpen "missing") ∧
      isOverlapRes (layout_flash [] (fun _ => none) c1bad) = false ∧
      (resolveAreas 0 (sortAreas c1bad)).any (fun x => decide (x.2.1 < x.2.2)) = true := by
  exact ⟨by decide, by decide, by decide⟩

/-- Claim C1 (amended): for every list of areas none of which attaches a
file, the layout compiler fails with an overlap error exactly when, in
offset-sorted processing order, some area's resolved offset is strictly
below the running end of its predecessors (so zero-gap adjacency, where
the offset equals the previous end, is accepted); and when it does fail,
the error carries exactly the previous running end, the first offending
area's description, and that area's resolved offset. -/
theorem c1_overlap_error_iff (env : List (String × String))
    (fsr : String → Option (List Nat)) (areas : List Area)
    (hnf : ∀ a ∈ areas, a.file = none) :
    (isOverlapRes (layout_flash env fsr areas) = true ↔
        ∃ x ∈ resolveAreas 0 (sortAreas areas), x.2.1 < x.2.2) ∧
      ∀ p d o, layout_flash env fsr areas = Except.error (LayoutErr.overlap p d o) →
        ∃ x, (resolveAreas 0 (sortAreas areas)).find? (fun y => decide (y.2.1 < y.2.2)) =
            some x ∧ x.2.2 = p ∧ x.1.description = d ∧ x.2.1 = o := by
  have hnf2 : ∀ a ∈ sortAreas areas, a.file = none := fun a ha =>
    hnf a ((sortAreas_perm areas).mem_iff.mp ha)
  have hchar := layoutLoop_nofile_char env fsr (sortAreas areas) emptyFile 0 hnf2
  constructor
  · constructor
    · intro hov
      rcases hchar with ⟨x, hfind, heq⟩ | ⟨hfind, f2, heq⟩
      · exact ⟨x, List.mem_of_find?_eq_some hfind, by simpa using List.find?_some hfind⟩
      · simp only [layout_flash] at hov
        rw [heq] at hov
        simp [isOverlapRes] at hov
    · rintro ⟨x, hx, hlt⟩
      rcases hchar with ⟨z, hfind, heq⟩ | ⟨hfind, f2, heq⟩
      · simp only [layout_flash]
        rw [heq]
        rfl
      · exfalso
        have hsome : ((resolveAreas 0 (sortAreas areas)).find?
            (fun y => decide (y.2.1 < y.2.2))).isSome := by
          rw [List.find?_isSome]
          exact ⟨x, hx, by simpa using hlt⟩
        rw [hfind] at hsome
        simp at hsome
  · intro p d o heq
    rcases hchar with ⟨x, hfind, heq2⟩ | ⟨hfind, f2, heq2⟩
    · refine ⟨x, hfind, ?_⟩
      simp only [layout_flash] at heq
      rw [heq2] at heq
      simp only [Except.error.injEq, LayoutErr.overlap.injEq] at heq
      exact ⟨heq.1, heq.2.1, heq.2.2⟩
    · simp only [layout_flash] at heq
      rw [heq2] at heq
      cases heq

/-- Witness for C1 (amended): the spec's own overlap scenario, areas
`(offset 0, size 16)` and `(offset 8, size 16)`, fails with an overlap
error. -/
theorem c1_witness :
    isOverlapRes (layout_flash [] (fun _ => none)
      [⟨"one", "", some 0, 16, none⟩, ⟨"two", "", some 8, 16, none⟩]) = true :=
  (c1_overlap_error_iff [] (fun _ => none)
    [⟨"one", "", some 0, 16, none⟩, ⟨"two", "", some 8, 16, none⟩]
    (by decide)).1.mpr (by decide)

/-- Counterexample for claim C3: the single zero-size area at offset 100
is non-overlapping with all offsets explicit and the compiler succeeds,
but the output length is 0, not `max(offset + size) = 100` — a
zero-length write does not extend the file. -/
theorem c3_counterexample :
    isOkRes (layout_flash [] (fun _ => none) c3zero) = true ∧
      resultLength (layout_flash [] (fun _ => none) c3zero) = some 0 ∧
      maxEnd c3zero = 100 ∧
      resultLength (layout_flash [] (fun _ => none) c3zero) ≠ some (maxEnd c3zero) := by
  exact ⟨by decide, by decide, by decide, by decide⟩

/-- Claim C3 (amended): for every set of areas with all offsets explicit,
all sizes positive, no attached files, every `offset + size` below
`2 ^ 32`, and pairwise non-overlapping `[offset, offset + size)` ranges,
the layout compiler succeeds and the output file's total length is the
maximum of `offset + size` over the areas. -/
theorem c3_explicit_layout_length (env : List (String × String))
    (fsr : String → Option (List Nat)) (areas : List Area)
    (hoff : ∀ a ∈ areas, a.offset.isSome = true)
    (hpos : ∀ a ∈ areas, 0 < a.size)
    (hnw : ∀ a ∈ areas, a.offset.getD 0 + a.size < 4294967296)
    (hnf : ∀ a ∈ areas, a.file = none)
    (hdisj : List.Pairwise
      (fun x y => x.offset.getD 0 + x.size ≤ y.offset.getD 0 ∨
        y.offset.getD 0 + y.size ≤ x.offset.getD 0) areas) :
    ∃ f2, layout_flash env fsr areas = Except.ok f2 ∧ f2.length = maxEnd areas := by
  have hperm := sortAreas_perm areas
  have hmem : ∀ a, a ∈ sortAreas areas → a ∈ areas := fun a ha => hperm.mem_iff.mp ha
  have hsort := sortAreas_sorted areas
  have hdisj2 : List.Pairwise
      (fun x y => x.offset.getD 0 + x.size ≤ y.offset.getD 0 ∨
        y.offset.getD 0 + y.size ≤ x.offset.getD 0) (sortAreas areas) :=
    (hperm.pairwise_iff (fun h => Or.symm h)).mpr hdisj
  have hchain : List.Pairwise
      (fun x y => x.offset.getD 0 + x.size ≤ y.offset.getD 0) (sortAreas areas) := by
    refine List.Pairwise.imp_of_mem ?_ (hsort.and hdisj2)
    intro x y hx hy hr
    obtain ⟨ox, hox⟩ := Option.isSome_iff_exists.mp (hoff x (hmem _ hx))
    obtain ⟨oy, hoy⟩ := Option.isSome_iff_exists.mp (hoff y (hmem _ hy))
    have hxy : ox ≤ oy := by
      have h1 := hr.1
      rw [areaLE, hox, hoy] at h1
      simpa [keyLE] using h1
    rcases hr.2 with h2 | h2
    · exact h2
    · have hsz := hpos y (hmem _ hy)
      rw [hox, hoy] at h2 ⊢
      simp only [Option.getD_some] at h2 ⊢
      omega
  obtain ⟨f2, hok, hlen⟩ := layoutLoop_ok_len env fsr (sortAreas areas) emptyFile 0
    (fun a ha => hnf a (hmem a ha)) (fun a ha => hpos a (hmem a ha))
    (fun a ha => Option.isSome_iff_exists.mp (hoff a (hmem a ha)))
    (fun a ha => hnw a (hmem a ha))
    (fun a _ => Nat.zero_le _) hchain
  refine ⟨f2, ?_, ?_⟩
  · simp only [layout_flash]
    exact hok
  · rw [hlen]
    exact maxEnd_perm hperm

/-- Witness for C3 (amended): the spec's own success scenario, areas
`(offset 0, size 16)` and `(offset 16, size 16)`, yields output length
32. -/
theorem c3_witness :
    resultLength (layout_flash [] (fun _ => none)
      [⟨"x", "", some 0, 16, none⟩, ⟨"y", "", some 16, 16, none⟩]) = some 32 := by
  obtain ⟨f2, hok, hlen⟩ := c3_explicit_layout_length [] (fun _ => none)
    [⟨"x", "", some 0, 16, none⟩, ⟨"y", "", some 16, 16, none⟩]
    (by decide) (by decide) (by decide) (by decide) (by decide)
  rw [hok]
  simp only [resultLength]
  rw [hlen]
  decide

/-- Counterexample for claim C4: in `c4wrap` the first area's file `f`
reads successfully (3 bytes, within its size), yet the final output
byte at index 6 — inside `[offset, offset + filelen)` of that area — is
255, not the file's byte 20: the second area's `u32`-wrapped end let it
be laid out inside the first area and overwrite it.  So the claim fails
without an `offset + size < 2 ^ 32` precondition. -/
theorem c4_counterexample :
    isOkRes (layout_flash [] c4fs c4wrap) = true ∧
      c4fs (substEnv [] "f") = some [10, 20, 30] ∧
      byteAt (layout_flash [] c4fs c4wrap) 6 = some 255 ∧
      byteAt (layout_flash [] c4fs c4wrap) 6 ≠ some 20 := by
  exact ⟨by decide, by decide, by decide, by decide⟩

/-- Claim C4 (amended): when compilation succeeds and every area's
resolved offset plus size is below `2 ^ 32`, then for every area whose
file path survives substitution (not of the `$(...)` skip form) and
reads successfully with at most `size` bytes, the output bytes in
`[offset, offset + filelen)` are the file's content and those in
`[offset + filelen, offset + size)` are `0xff`. -/
theorem c4_file_content (env : List (String × String))
    (fsr : String → Option (List Nat)) (areas : List Area) (f2 : OutFile)
    (hok : layout_flash env fsr areas = Except.ok f2)
    (hnw : ∀ x ∈ resolveAreas 0 (sortAreas areas), x.2.1 + x.1.size < 4294967296)
    (x : Area × Nat × Nat) (hx : x ∈ resolveAreas 0 (sortAreas areas))
    (p : String) (bytes : List Nat)
    (hfile : x.1.file = some p)
    (hskip : isSkipPath (substEnv env p) = false)
    (hread : fsr (substEnv env p) = some bytes) :
    bytes.length ≤ x.1.size ∧
      (∀ k, k < bytes.length → f2.data (x.2.1 + k) = bytes.getD k 0) ∧
      (∀ k, bytes.length ≤ k → k < x.1.size → f2.data (x.2.1 + k) = 255) := by
  simp only [layout_flash] at hok
  exact layoutLoop_files env fsr (sortAreas areas) emptyFile 0 f2 hok hnw
    x hx p bytes hfile hskip hread

/-- Witness for C4 (amended): one area at offset 2, size 4, with the
two-byte file `g = [9, 8]`: output byte 3 is the file's second byte 8
and byte 5 is the fill byte 255. -/
theorem c4_witness :
    byteAt (layout_flash [] c4gfs c4good) 3 = some 8 ∧
      byteAt (layout_flash [] c4gfs c4good) 5 = some 255 := by
  cases heq : layout_flash [] c4gfs c4good with
  | error e =>
    have hok : isOkRes (layout_flash [] c4gfs c4good) = true := by decide
    rw [heq] at hok
    simp [isOkRes] at hok
  | ok f2 =>
    have h := c4_file_content [] c4gfs c4good f2 heq (by decide)
      (⟨"w", "", some 2, 4, some "g"⟩, 2, 0) (by decide) "g" [9, 8] rfl
      (by decide) (by decide)
    have h1 := h.2.1 1 (by decide)
    have h2 := h.2.2 3 (by decide) (by decide)
    exact ⟨congrArg some h1, congrArg some h2⟩

/-- Claim C10: the running end is advanced by `u32` addition, which
wraps modulo `2 ^ 32` (first conjunct: a concrete wrap); without the
`offset + size < 2 ^ 32` precondition the non-overlap guarantee fails —
`c10areas` compiles successfully although the two areas' mathematical
ranges intersect (second conjunct) — while under that precondition every
successful compilation has pairwise disjoint resolved ranges (third
conjunct; the output-length guarantee under the same precondition is
`c3_explicit_layout_length`). -/
theorem c10_u32_wrap :
    u32add 4294967295 2 = 1 ∧
      (isOkRes (layout_flash [] (fun _ => none) c10areas) = true ∧
        4294967296 ≤ 5 + 4294967295 ∧ 5 ≤ 6 ∧ 6 < 5 + 4294967295) ∧
      ∀ (env : List (String × String)) (fsr : String → Option (List Nat))
        (areas : List Area) (f2 : OutFile),
        (∀ x ∈ resolveAreas 0 (sortAreas areas), x.2.1 + x.1.size < 4294967296) →
        layout_flash env fsr areas = Except.ok f2 →
        List.Pairwise (fun x y => x.2.1 + x.1.size ≤ y.2.1 ∨ y.2.1 + y.1.size ≤ x.2.1)
          (resolveAreas 0 (sortAreas areas)) := by
  refine ⟨by decide, ⟨by decide, by omega, by omega, by omega⟩, ?_⟩
  intro env fsr areas f2 hnw hok
  simp only [layout_flash] at hok
  exact layoutLoop_pairwise env fsr (sortAreas areas) emptyFile 0 f2 hok hnw

/-- Witness for C10: under the no-wrap precondition, the successful
layout of the two 16-byte areas has disjoint resolved ranges. -/
theorem c10_witness :
    List.Pairwise (fun x y => x.2.1 + x.1.size ≤ y.2.1 ∨ y.2.1 + y.1.size ≤ x.2.1)
      (resolveAreas 0 (sortAreas
        [⟨"x", "", some 0, 16, none⟩, ⟨"y", "", some 16, 16, none⟩])) := by
  cases heq : layout_flash [] (fun _ => none)
      [⟨"x", "", some 0, 16, none⟩, ⟨"y", "", some 16, 16, none⟩] with
  | error e =>
    have hok : isOkRes (layout_flash [] (fun _ => none)
        [⟨"x", "", some 0, 16, none⟩, ⟨"y", "", some 16, 16, none⟩]) = true := by decide
    rw [heq] at hok
    simp [isOkRes] at hok
  | ok f2 =>
    exact c10_u32_wrap.2.2 [] (fun _ => none)
      [⟨"x", "", some 0, 16, none⟩, ⟨"y", "", some 16, 16, none⟩] f2 (by decide) heq
